import Mathlib

/-!
Verification development for the gitoxide file-store reference transaction
engine (git-ref, `store/file/transaction.rs`) and the attribute state
conversions of git-attributes (`lib.rs`).

The Rust code is shallowly embedded:
* byte strings (`BString`, object ids, file contents) are `List Nat`;
* the filesystem visible to the store is a `Disk`: an association list from
  reference names (used directly as paths) to file contents, a set of paths
  whose lock is currently held (lock files), and a set of paths whose
  `remove_file` fails with an error other than `NotFound` (fault injection
  for the deletion path of `commit`);
* fallible Rust code returns `Except Failure _`; a returned `Err(Error)` is
  `Failure.err`, while a Rust panic (an `assert!`, `expect` or `todo!` hit
  at run time) is `Failure.panic` with a tag naming the panic site;
* dropping a lock guard releases the lock: the model makes a failing
  `prepare` hand back the caller's `held` set unchanged, which is exactly
  what dropping every acquired guard does, and a failing `commit` releases
  the locks of every edit of the batch.
-/

namespace GitRef

/-- Reference names (`BString` / `FullName` in the source) as raw bytes. -/
abbrev RefName := List Nat

/-- File contents and object ids as raw bytes. -/
abbrev Bytes := List Nat

/-- `Target`: a reference points at an object id (`Peeled`) or redirects to
another reference name (`Symbolic`). -/
inductive Target where
  | peeled (oid : Bytes)
  | symbolic (name : RefName)
deriving DecidableEq

/-- Reflog mode carried by a change; the transaction engine never inspects
it except to match symbolic-target updates in `commit`. -/
inductive RefLog where
  | andReference
  | only
deriving DecidableEq

/-- `Change`: one requested change of a `RefEdit`. -/
inductive Change where
  | update (previous : Option Target) (new : Target) (mode : RefLog)
  | delete (previous : Option Target) (mode : RefLog)
deriving DecidableEq

/-- `RefEdit`: a reference name together with its requested change. -/
structure RefEdit where
  name : RefName
  change : Change
deriving DecidableEq

/-- The state of an acquired `git_lock::Marker`: a content-less marker lock
(deletions), or a closed writer lock whose staged, still invisible content
will be moved into place by `commit`. -/
inductive LockState where
  | marker
  | staged (content : Bytes)
deriving DecidableEq

/-- The internal `Edit` struct: the requested edit, its lock (absent before
`prepare`), and the index of the edit it was split off from. -/
structure Edit where
  update : RefEdit
  lock : Option LockState
  parentIndex : Option Nat
deriving DecidableEq

/-- The two-state lifecycle marker of a `Transaction`. -/
inductive State where
  | Open
  | Prepared
deriving DecidableEq

/-- `git_lock::acquire::Fail`: what to do when a lock is already held. -/
inductive Fail where
  | immediately
  | afterDurationWithBackoff
deriving DecidableEq

/-- The `Transaction` struct (the store handle is replaced by passing the
`Disk` to each operation). -/
structure Transaction where
  updates : List Edit
  state : State
  lockFailMode : Fail
deriving DecidableEq

/-- Tags for the panic sites of the source: the `assert!` in
`lock_ref_and_apply_change`, the three `todo!` branches, the two `expect`
calls of `commit`, and the `todo!` of the deletion error path. -/
inductive PanicMsg where
  /-- assert: locks can only be acquired once and it is all or nothing -/
  | locksAcquiredOnce
  /-- todo: compare existing value with desired previous one -/
  | comparePreviousDelete
  /-- todo: check previous value, if object id is not null -/
  | checkPreviousUpdate
  /-- todo: commit other reflog write cases -/
  | reflogWriteCases
  /-- expect: each ref is locked -/
  | eachRefLocked
  /-- expect: each ref is locked, even deletions -/
  | eachRefLockedDeletions
  /-- todo: return some sort of error to indicate deletion failed -/
  | deletionFailedTodo
  /-- expect: no illformed unicode (git-attributes `From<StateRef>`) -/
  | noIllformedUnicode
deriving DecidableEq

/-- The `Error` enum of the transaction module. -/
inductive Error where
  | duplicateRefEdits (firstName : RefName)
  | lockAcquire
  | io
  | deletionReferenceMustExist (fullName : RefName)
  | referenceDecode
deriving DecidableEq

/-- How a fallible operation fails: a returned `Err` of the taxonomy above,
or a Rust panic. -/
inductive Failure where
  | err (e : Error)
  | panic (msg : PanicMsg)
deriving DecidableEq

/-- The store-visible filesystem. `refs` maps a reference name (its path
relative to the store base) to the bytes of its file; `held` lists paths
whose lock file is currently held; `removeErr` lists paths for which
`std::fs::remove_file` fails with an error kind other than `NotFound`. -/
@[ext]
structure Disk where
  refs : List (RefName × Bytes)
  held : List RefName
  removeErr : List RefName
deriving DecidableEq

/-- The empty store: no files, no locks, no injected faults. -/
def emptyDisk : Disk := ⟨[], [], []⟩

/-- Association-list lookup of a reference file's bytes. -/
def lookupRef : List (RefName × Bytes) → RefName → Option Bytes
  | [], _ => none
  | p :: rest, n => if p.1 = n then some p.2 else lookupRef rest n

/-- Replace or insert a reference file's bytes. -/
def setRef : List (RefName × Bytes) → RefName → Bytes → List (RefName × Bytes)
  | [], n, c => [(n, c)]
  | p :: rest, n, c => if p.1 = n then (n, c) :: rest else p :: setRef rest n c

/-- Remove a reference file. -/
def eraseRef : List (RefName × Bytes) → RefName → List (RefName × Bytes)
  | [], _ => []
  | p :: rest, n => if p.1 = n then rest else p :: eraseRef rest n

/-- `Store::ref_contents`: the current bytes of a reference's file, if any. -/
def readRef (d : Disk) (n : RefName) : Option Bytes := lookupRef d.refs n

/-- The ASCII bytes of the literal prefix of a symbolic reference file. -/
def refColonSpace : Bytes := [114, 101, 102, 58, 32]

/-- The bytes staged for a target: `write_all(oid.as_bytes())` for a peeled
target, `write_all(b"ref: ")` then `write_all(name)` for a symbolic one. -/
def encodeTarget : Target → Bytes
  | .peeled oid => oid
  | .symbolic name => refColonSpace ++ name

/-- Modelled from the spec: `file::Reference::try_from_path` (the reference
decoder) is not part of the sources given; per the spec's bit-exact on-disk
format, a file starting with the literal prefix decodes to a symbolic
target for the remaining bytes and any other file decodes to a peeled
target of exactly its bytes. -/
def decodeTarget (buf : Bytes) : Target :=
  if refColonSpace.isPrefixOf buf then .symbolic (buf.drop 5) else .peeled buf

/-- Reading and decoding the existing reference, as done at the top of
`lock_ref_and_apply_change` (the possibility of a `ReferenceDecode` error
is kept in the type; the spec-modelled decoder itself is total). -/
def refContents (d : Disk) (n : RefName) : Except Failure (Option Target) :=
  match readRef d n with
  | none => .ok none
  | some buf => .ok (some (decodeTarget buf))

/-- Modelled from the spec: `RefEditsExt::assure_one_name_has_one_edit` is
not part of the sources given; per the spec it fails with the first
duplicated name when two edits of the batch target the same reference. -/
def assure_one_name_has_one_edit : List RefName → Option RefName
  | [] => none
  | n :: rest => if n ∈ rest then some n else assure_one_name_has_one_edit rest

/-- `Transaction::lock_ref_and_apply_change`: acquire the edit's lock,
validate the requested previous value against the existing reference, and
stage the new content invisibly; on success the disk only gains the lock. -/
def lock_ref_and_apply_change (d : Disk) (change : Edit) :
    Except Failure (Edit × Disk) :=
  match change.lock with
  | some _ => .error (.panic .locksAcquiredOnce)
  | none =>
    match change.update.change with
    | .delete previous mode =>
      if change.update.name ∈ d.held then .error (.err .lockAcquire)
      else
        match refContents d change.update.name with
        | .error f => .error f
        | .ok existing =>
          match previous, existing with
          | none, _ =>
            .ok ({ change with
                    update := ⟨change.update.name, .delete previous mode⟩,
                    lock := some .marker },
                 { d with held := change.update.name :: d.held })
          | some _, none =>
            .error (.err (.deletionReferenceMustExist change.update.name))
          | some _, some _ => .error (.panic .comparePreviousDelete)
    | .update previous new mode =>
      if change.update.name ∈ d.held then .error (.err .lockAcquire)
      else
        match previous with
        | some _ => .error (.panic .checkPreviousUpdate)
        | none =>
          match refContents d change.update.name with
          | .error f => .error f
          | .ok existing =>
            .ok ({ change with
                    update := ⟨change.update.name, .update existing new mode⟩,
                    lock := some (.staged (encodeTarget new)) },
                 { d with held := change.update.name :: d.held })

/-- The per-edit loop of `prepare`. A failure carries the disk at the point
of failure (lock files make it differ from the caller's disk only in
`held`). -/
def prepareEdits : List Edit → Disk → Except (Failure × Disk) (List Edit × Disk)
  | [], d => .ok ([], d)
  | e :: rest, d =>
    match lock_ref_and_apply_change d e with
    | .error f => .error (f, d)
    | .ok (e2, d2) =>
      match prepareEdits rest d2 with
      | .error fd => .error fd
      | .ok (es, d3) => .ok (e2 :: es, d3)

/-- `Transaction::prepare`. On failure the transaction value is dropped:
every lock guard acquired so far is released, which restores the caller's
`held` set; nothing else of the disk was changed. -/
def Transaction.prepare (tx : Transaction) (d : Disk) :
    (Except Failure Transaction) × Disk :=
  match tx.state with
  | .Prepared => (.ok tx, d)
  | .Open =>
    match assure_one_name_has_one_edit (tx.updates.map (fun e => e.update.name)) with
    | some firstName => (.error (.err (.duplicateRefEdits firstName)), d)
    | none =>
      match prepareEdits tx.updates d with
      | .ok (es, d2) => (.ok { tx with updates := es, state := .Prepared }, d2)
      | .error (f, dm) => (.error f, { dm with held := d.held })

/-- An observable store mutation performed by `commit`: a staged update made
visible at its final path, or a reference file removed. -/
inductive Ev where
  | visible (name : RefName) (content : Bytes)
  | removed (name : RefName)
deriving DecidableEq

/-- Whether an event is a reference-file removal. -/
def Ev.isRemoval : Ev → Bool
  | .visible _ _ => false
  | .removed _ => true

/-- Committing a writer lock: the staged content becomes visible at the
final path and the lock is released. -/
def applyVisible (d : Disk) (n : RefName) (c : Bytes) : Disk :=
  ⟨setRef d.refs n c, d.held.erase n, d.removeErr⟩

/-- Dropping a lock guard without touching the reference file. -/
def releaseHeld (d : Disk) (n : RefName) : Disk :=
  { d with held := d.held.erase n }

/-- Removing a reference file and releasing its lock. -/
def applyRemoved (d : Disk) (n : RefName) : Disk :=
  ⟨eraseRef d.refs n, d.held.erase n, d.removeErr⟩

/-- Phase 1 of `commit`: for every `Update` edit, take its lock, skip the
reflog for symbolic targets (other reflog cases are an unimplemented
`todo!`), and make the staged content visible. Returns the realized edits,
the disk, and the trace of observable mutations. -/
def phase1 : List Edit → Disk → (Except Failure (List Edit)) × Disk × List Ev
  | [], d => (.ok [], d, [])
  | e :: rest, d =>
    match e.update.change with
    | .delete _ _ =>
      ((phase1 rest d).1.map (fun es => e :: es),
       (phase1 rest d).2.1, (phase1 rest d).2.2)
    | .update _ new _ =>
      match e.lock with
      | none => (.error (.panic .eachRefLocked), d, [])
      | some lk =>
        match new with
        | .peeled _ => (.error (.panic .reflogWriteCases), d, [])
        | .symbolic _ =>
          match lk with
          | .staged content =>
            ((phase1 rest (applyVisible d e.update.name content)).1.map
                (fun es => { e with lock := none } :: es),
             (phase1 rest (applyVisible d e.update.name content)).2.1,
             Ev.visible e.update.name content ::
               (phase1 rest (applyVisible d e.update.name content)).2.2)
          | .marker =>
            ((phase1 rest (releaseHeld d e.update.name)).1.map
                (fun es => { e with lock := none } :: es),
             (phase1 rest (releaseHeld d e.update.name)).2.1,
             (phase1 rest (releaseHeld d e.update.name)).2.2)

/-- Phase 2 of `commit`: for every `Delete` edit, take its lock and remove
the reference's file; `NotFound` is success, any other removal error hits
the unimplemented `todo!` of the source. -/
def phase2 : List Edit → Disk → (Except Failure (List Edit)) × Disk × List Ev
  | [], d => (.ok [], d, [])
  | e :: rest, d =>
    match e.update.change with
    | .update _ _ _ =>
      ((phase2 rest d).1.map (fun es => e :: es),
       (phase2 rest d).2.1, (phase2 rest d).2.2)
    | .delete _ _ =>
      match e.lock with
      | none => (.error (.panic .eachRefLockedDeletions), d, [])
      | some _ =>
        if e.update.name ∈ d.removeErr then
          (.error (.panic .deletionFailedTodo), d, [])
        else
          match lookupRef d.refs e.update.name with
          | some _ =>
            ((phase2 rest (applyRemoved d e.update.name)).1.map
                (fun es => { e with lock := none } :: es),
             (phase2 rest (applyRemoved d e.update.name)).2.1,
             Ev.removed e.update.name ::
               (phase2 rest (applyRemoved d e.update.name)).2.2)
          | none =>
            ((phase2 rest (releaseHeld d e.update.name)).1.map
                (fun es => { e with lock := none } :: es),
             (phase2 rest (releaseHeld d e.update.name)).2.1,
             (phase2 rest (releaseHeld d e.update.name)).2.2)

/-- Releasing the lock of every edit of the batch: what unwinding out of a
failing `commit` does to the guards still alive. -/
def releaseAllLocks (es : List Edit) (d : Disk) : Disk :=
  es.foldl (fun dk e => releaseHeld dk e.update.name) d

/-- The `State::Prepared` arm of `Transaction::commit`: phase 1 (updates)
then phase 2 (deletes), in original per-phase order; on failure the
remaining changes are not rolled back, but every lock guard of the batch is
dropped. -/
def commitPrepared (tx : Transaction) (d : Disk) :
    (Except Failure (List RefEdit)) × Disk × List Ev :=
  match (phase1 tx.updates d).1 with
  | .error f => (.error f, releaseAllLocks tx.updates (phase1 tx.updates d).2.1,
                 (phase1 tx.updates d).2.2)
  | .ok es1 =>
    match (phase2 es1 (phase1 tx.updates d).2.1).1 with
    | .error f =>
      (.error f,
       releaseAllLocks es1 (phase2 es1 (phase1 tx.updates d).2.1).2.1,
       (phase1 tx.updates d).2.2 ++ (phase2 es1 (phase1 tx.updates d).2.1).2.2)
    | .ok es2 =>
      (.ok (es2.map (fun e => e.update)),
       (phase2 es1 (phase1 tx.updates d).2.1).2.1,
       (phase1 tx.updates d).2.2 ++ (phase2 es1 (phase1 tx.updates d).2.1).2.2)

/-- `Transaction::commit`: an `Open` transaction is prepared first and a
preparation failure is propagated verbatim (a transaction successfully
prepared is always in state `Prepared`, so the source's tail recursion is
unfolded once). -/
def Transaction.commit (tx : Transaction) (d : Disk) :
    (Except Failure (List RefEdit)) × Disk × List Ev :=
  match tx.state with
  | .Prepared => commitPrepared tx d
  | .Open =>
    match Transaction.prepare tx d with
    | (.ok tx2, d2) => commitPrepared tx2 d2
    | (.error f, d2) => (.error f, d2, [])

/-- `Store::transaction`: pure construction of an `Open` transaction. -/
def Store.transaction (edits : List RefEdit) (lock : Fail) : Transaction :=
  { updates := edits.map (fun u => { update := u, lock := none, parentIndex := none }),
    state := .Open,
    lockFailMode := lock }

/-- The lock invariant holding for every edit right after a successful
`prepare`: deletions hold a marker lock, updates hold a closed writer lock
whose staged bytes encode the new target. -/
def Edit.preparedInv (e : Edit) : Prop :=
  match e.update.change with
  | .update _ new _ => e.lock = some (.staged (encodeTarget new))
  | .delete _ _ => e.lock = some .marker

/-! Helper lemmas about the association-list filesystem. -/

theorem lookupRef_setRef_self (l : List (RefName × Bytes)) (n : RefName) (c : Bytes) :
    lookupRef (setRef l n c) n = some c := by
  induction l with
  | nil => simp [setRef, lookupRef]
  | cons p rest ih => by_cases h : p.1 = n <;> simp [setRef, lookupRef, h, ih]

theorem lookupRef_setRef_ne (l : List (RefName × Bytes)) (n m : RefName) (c : Bytes)
    (h : m ≠ n) : lookupRef (setRef l n c) m = lookupRef l m := by
  induction l with
  | nil => simp [setRef, lookupRef, Ne.symm h]
  | cons p rest ih =>
    by_cases hp : p.1 = n
    · simp [setRef, lookupRef, hp, Ne.symm h]
    · simp [setRef, lookupRef, hp, ih]

theorem lookupRef_eraseRef_ne (l : List (RefName × Bytes)) (n m : RefName)
    (h : m ≠ n) : lookupRef (eraseRef l n) m = lookupRef l m := by
  induction l with
  | nil => simp [eraseRef]
  | cons p rest ih =>
    by_cases hp : p.1 = n
    · simp [eraseRef, lookupRef, hp, Ne.symm h]
    · simp [eraseRef, lookupRef, hp, ih]

/-! Helper lemmas about the duplicate-name check. -/

theorem assure_eq_none_nodup (l : List RefName)
    (h : assure_one_name_has_one_edit l = none) : l.Nodup := by
  induction l with
  | nil => simp
  | cons n rest ih =>
    by_cases hm : n ∈ rest
    · simp [assure_one_name_has_one_edit, hm] at h
    · simp only [assure_one_name_has_one_edit, hm, if_false, ite_false] at h
      exact List.nodup_cons.mpr ⟨hm, ih h⟩

theorem assure_some_of_not_nodup (l : List RefName) (h : ¬ l.Nodup) :
    ∃ n, assure_one_name_has_one_edit l = some n := by
  cases ha : assure_one_name_has_one_edit l with
  | none => exact absurd (assure_eq_none_nodup l ha) h
  | some n => exact ⟨n, rfl⟩

/-- A list whose image under `f` has no duplicates maps distinct members to
distinct values. -/
theorem nodupMap_inj {α β : Type _} (f : α → β) (l : List α)
    (h : (l.map f).Nodup) (a b : α) (ha : a ∈ l) (hb : b ∈ l)
    (hf : f a = f b) : a = b := by
  induction l with
  | nil => cases ha
  | cons c rest ih =>
    rw [List.map_cons, List.nodup_cons] at h
    rcases List.mem_cons.mp ha with rfl | ha2
    · rcases List.mem_cons.mp hb with rfl | hb2
      · rfl
      · have hmem : f a ∈ List.map f rest := by
          rw [hf]; exact List.mem_map_of_mem f hb2
        exact absurd hmem h.1
    · rcases List.mem_cons.mp hb with rfl | hb2
      · have hmem : f b ∈ List.map f rest := by
          rw [← hf]; exact List.mem_map_of_mem f ha2
        exact absurd hmem h.1
      · exact ih h.2 ha2 hb2

/-! Helper lemmas about `lock_ref_and_apply_change` and `prepare`. -/

theorem lock_ref_ok_spec (d : Disk) (e e2 : Edit) (d2 : Disk)
    (h : lock_ref_and_apply_change d e = .ok (e2, d2)) :
    e2.update.name = e.update.name ∧ e2.preparedInv ∧
    d2.refs = d.refs ∧ d2.removeErr = d.removeErr ∧
    (∀ p new m, e.update.change = .update p new m →
      ∃ p2, e2.update.change = .update p2 new m) ∧
    (∀ p m, e.update.change = .delete p m → e2.update.change = .delete p m) := by
  obtain ⟨⟨name, change⟩, lock, pidx⟩ := e
  cases lock with
  | some l => simp [lock_ref_and_apply_change] at h
  | none =>
    cases change with
    | delete previous mode =>
      by_cases hm : name ∈ d.held
      · simp [lock_ref_and_apply_change, hm] at h
      · cases hrc : refContents d name with
        | error f => simp [lock_ref_and_apply_change, hm, hrc] at h
        | ok existing =>
          cases previous with
          | none =>
            simp only [lock_ref_and_apply_change, hm, hrc, if_false, ite_false,
              Except.ok.injEq, Prod.mk.injEq, if_neg, reduceCtorEq] at h
            obtain ⟨he, hd⟩ := h
            subst he; subst hd
            refine ⟨rfl, ?_, rfl, rfl, ?_, ?_⟩
            · simp [Edit.preparedInv]
            · intro p new m hup; cases hup
            · intro p m hdel
              injection hdel with h1 h2
              subst h1; subst h2; rfl
          | some prev =>
            cases existing with
            | none => simp [lock_ref_and_apply_change, hm, hrc] at h
            | some ex => simp [lock_ref_and_apply_change, hm, hrc] at h
    | update previous new mode =>
      by_cases hm : name ∈ d.held
      · simp [lock_ref_and_apply_change, hm] at h
      · cases previous with
        | some prev => simp [lock_ref_and_apply_change, hm] at h
        | none =>
          cases hrc : refContents d name with
          | error f => simp [lock_ref_and_apply_change, hm, hrc] at h
          | ok existing =>
            simp only [lock_ref_and_apply_change, hm, hrc, if_false, ite_false,
              Except.ok.injEq, Prod.mk.injEq, if_neg, reduceCtorEq] at h
            obtain ⟨he, hd⟩ := h
            subst he; subst hd
            refine ⟨rfl, ?_, rfl, rfl, ?_, ?_⟩
            · simp [Edit.preparedInv]
            · intro p new2 m hup
              injection hup with h1 h2 h3
              subst h2; subst h3
              exact ⟨existing, rfl⟩
            · intro p m hdel; cases hdel

theorem prepareEdits_err_disk (es : List Edit) :
    ∀ (d : Disk) (f : Failure) (dm : Disk), prepareEdits es d = .error (f, dm) →
      dm.refs = d.refs ∧ dm.removeErr = d.removeErr := by
  induction es with
  | nil => intro d f dm h; simp [prepareEdits] at h
  | cons e rest ih =>
    intro d f dm h
    cases hle : lock_ref_and_apply_change d e with
    | error f2 =>
      simp only [prepareEdits, hle, Except.error.injEq, Prod.mk.injEq] at h
      obtain ⟨-, hd⟩ := h
      subst hd
      exact ⟨rfl, rfl⟩
    | ok pr =>
      obtain ⟨e2, dk⟩ := pr
      obtain ⟨-, -, hrefs, hrem, -, -⟩ := lock_ref_ok_spec d e e2 dk hle
      cases hpe : prepareEdits rest dk with
      | error fd =>
        obtain ⟨f2, dm2⟩ := fd
        simp only [prepareEdits, hle, hpe, Except.error.injEq, Prod.mk.injEq] at h
        obtain ⟨-, hd⟩ := h
        subst hd
        obtain ⟨h1, h2⟩ := ih dk f2 dm2 hpe
        exact ⟨h1.trans hrefs, h2.trans hrem⟩
      | ok pr2 =>
        obtain ⟨es3, d3⟩ := pr2
        simp [prepareEdits, hle, hpe] at h

theorem prepareEdits_ok_spec (es : List Edit) :
    ∀ (d : Disk) (es2 : List Edit) (d2 : Disk), prepareEdits es d = .ok (es2, d2) →
      es2.map (fun e => e.update.name) = es.map (fun e => e.update.name) ∧
      (∀ e2 ∈ es2, e2.preparedInv) := by
  induction es with
  | nil =>
    intro d es2 d2 h
    simp only [prepareEdits, Except.ok.injEq, Prod.mk.injEq] at h
    obtain ⟨h1, -⟩ := h
    subst h1
    exact ⟨rfl, by simp⟩
  | cons e rest ih =>
    intro d es2 d2 h
    cases hle : lock_ref_and_apply_change d e with
    | error f => simp [prepareEdits, hle] at h
    | ok pr =>
      obtain ⟨e2, dk⟩ := pr
      cases hpe : prepareEdits rest dk with
      | error fd => simp [prepareEdits, hle, hpe] at h
      | ok pr2 =>
        obtain ⟨es3, d3⟩ := pr2
        simp only [prepareEdits, hle, hpe, Except.ok.injEq, Prod.mk.injEq] at h
        obtain ⟨h1, h2⟩ := h
        subst h1; subst h2
        obtain ⟨hn, hi⟩ := ih dk es3 d3 hpe
        obtain ⟨hname, hinv, -, -, -, -⟩ := lock_ref_ok_spec d e e2 dk hle
        constructor
        · simp [hname, hn]
        · intro e3 he3
          rcases List.mem_cons.mp he3 with rfl | hmem
          · exact hinv
          · exact hi e3 hmem

theorem prepare_ok_state (tx tx2 : Transaction) (d d2 : Disk)
    (h : Transaction.prepare tx d = (.ok tx2, d2)) : tx2.state = .Prepared := by
  obtain ⟨updates, state, fm⟩ := tx
  cases state with
  | Prepared =>
    simp only [Transaction.prepare, Prod.mk.injEq, Except.ok.injEq] at h
    obtain ⟨h1, -⟩ := h
    subst h1
    rfl
  | Open =>
    cases hdup : assure_one_name_has_one_edit (updates.map fun e => e.update.name) with
    | some n => simp [Transaction.prepare, hdup] at h
    | none =>
      cases hpe : prepareEdits updates d with
      | error fd => obtain ⟨f, dm⟩ := fd; simp [Transaction.prepare, hdup, hpe] at h
      | ok pr =>
        obtain ⟨es, d3⟩ := pr
        simp only [Transaction.prepare, hdup, hpe, Prod.mk.injEq, Except.ok.injEq] at h
        obtain ⟨h1, -⟩ := h
        subst h1
        rfl

theorem prepare_ok_spec (tx : Transaction) (d : Disk) (tx2 : Transaction) (d2 : Disk)
    (hst : tx.state = .Open)
    (h : Transaction.prepare tx d = (.ok tx2, d2)) :
    tx2.state = .Prepared ∧
    (tx2.updates.map (fun e => e.update.name)).Nodup ∧
    (∀ e ∈ tx2.updates, e.preparedInv) := by
  obtain ⟨updates, state, fm⟩ := tx
  cases state with
  | Prepared => simp at hst
  | Open =>
    cases hdup : assure_one_name_has_one_edit (updates.map fun e => e.update.name) with
    | some n => simp [Transaction.prepare, hdup] at h
    | none =>
      cases hpe : prepareEdits updates d with
      | error fd => obtain ⟨f, dm⟩ := fd; simp [Transaction.prepare, hdup, hpe] at h
      | ok pr =>
        obtain ⟨es, d3⟩ := pr
        simp only [Transaction.prepare, hdup, hpe, Prod.mk.injEq, Except.ok.injEq] at h
        obtain ⟨h1, h2⟩ := h
        subst h1; subst h2
        obtain ⟨hn, hi⟩ := prepareEdits_ok_spec updates d es d3 hpe
        refine ⟨rfl, ?_, hi⟩
        show (es.map (fun e => e.update.name)).Nodup
        rw [hn]
        exact assure_eq_none_nodup _ hdup

/-! Helper lemmas about the two commit phases. -/

theorem phase1_no_removals (es : List Edit) :
    ∀ d : Disk, ∀ ev ∈ (phase1 es d).2.2, ev.isRemoval = false := by
  induction es with
  | nil => intro d ev hev; simp [phase1] at hev
  | cons e rest ih =>
    intro d ev hev
    obtain ⟨⟨name, change⟩, lock, pidx⟩ := e
    cases change with
    | delete p m =>
      simp only [phase1] at hev
      exact ih d ev hev
    | update p new m =>
      cases lock with
      | none => simp [phase1] at hev
      | some lk =>
        cases new with
        | peeled oid => simp [phase1] at hev
        | symbolic nm =>
          cases lk with
          | staged c =>
            simp only [phase1] at hev
            rcases List.mem_cons.mp hev with rfl | hm
            · rfl
            · exact ih _ ev hm
          | marker =>
            simp only [phase1] at hev
            exact ih _ ev hev

theorem phase2_all_removals (es : List Edit) :
    ∀ d : Disk, ∀ ev ∈ (phase2 es d).2.2, ev.isRemoval = true := by
  induction es with
  | nil => intro d ev hev; simp [phase2] at hev
  | cons e rest ih =>
    intro d ev hev
    obtain ⟨⟨name, change⟩, lock, pidx⟩ := e
    cases change with
    | update p new m =>
      simp only [phase2] at hev
      exact ih d ev hev
    | delete p m =>
      cases lock with
      | none => simp [phase2] at hev
      | some lk =>
        by_cases hre : name ∈ d.removeErr
        · simp [phase2, hre] at hev
        · cases hlu : lookupRef d.refs name with
          | some c =>
            simp only [phase2, hre, if_false, ite_false, hlu] at hev
            rcases List.mem_cons.mp hev with rfl | hm
            · rfl
            · exact ih _ ev hm
          | none =>
            simp only [phase2, hre, if_false, ite_false, hlu] at hev
            exact ih _ ev hev

theorem phase1_ok_updates (es : List Edit) :
    ∀ (d : Disk) (es2 : List Edit), (phase1 es d).1 = .ok es2 →
      es2.map (fun e => e.update) = es.map (fun e => e.update) := by
  induction es with
  | nil =>
    intro d es2 h
    simp only [phase1, Except.ok.injEq] at h
    subst h
    rfl
  | cons e rest ih =>
    intro d es2 h
    obtain ⟨⟨name, change⟩, lock, pidx⟩ := e
    cases change with
    | delete p m =>
      simp only [phase1] at h
      cases hr : (phase1 rest d).1 with
      | error f => rw [hr] at h; simp [Except.map] at h
      | ok es3 =>
        rw [hr] at h
        simp only [Except.map, Except.ok.injEq] at h
        subst h
        simp [ih d es3 hr]
    | update p new m =>
      cases lock with
      | none => simp [phase1] at h
      | some lk =>
        cases new with
        | peeled oid => simp [phase1] at h
        | symbolic nm =>
          cases lk with
          | staged c =>
            simp only [phase1] at h
            cases hr : (phase1 rest (applyVisible d name c)).1 with
            | error f => rw [hr] at h; simp [Except.map] at h
            | ok es3 =>
              rw [hr] at h
              simp only [Except.map, Except.ok.injEq] at h
              subst h
              simp [ih _ es3 hr]
          | marker =>
            simp only [phase1] at h
            cases hr : (phase1 rest (releaseHeld d name)).1 with
            | error f => rw [hr] at h; simp [Except.map] at h
            | ok es3 =>
              rw [hr] at h
              simp only [Except.map, Except.ok.injEq] at h
              subst h
              simp [ih _ es3 hr]

theorem phase1_ok_visible (es : List Edit) :
    ∀ (d : Disk) (es2 : List Edit), (phase1 es d).1 = .ok es2 →
      (∀ e ∈ es, e.preparedInv) →
      ∀ e ∈ es, ∀ p new m, e.update.change = .update p new m →
        Ev.visible e.update.name (encodeTarget new) ∈ (phase1 es d).2.2 := by
  induction es with
  | nil => intro d es2 h hinv e he; cases he
  | cons e0 rest ih =>
    intro d es2 h hinv e he p new m hch
    obtain ⟨⟨name, change⟩, lock, pidx⟩ := e0
    have hinvrest : ∀ x ∈ rest, x.preparedInv :=
      fun x hx => hinv x (List.mem_cons_of_mem _ hx)
    cases change with
    | delete pd md =>
      simp only [phase1] at h ⊢
      cases hr : (phase1 rest d).1 with
      | error f => rw [hr] at h; simp [Except.map] at h
      | ok es3 =>
        rcases List.mem_cons.mp he with rfl | hmem
        · simp at hch
        · exact ih d es3 hr hinvrest e hmem p new m hch
    | update pu nu mu =>
      cases lock with
      | none => simp [phase1] at h
      | some lk =>
        have hhead := hinv _ (List.mem_cons_self _ _)
        simp only [Edit.preparedInv] at hhead
        cases nu with
        | peeled oid => simp [phase1] at h
        | symbolic nm =>
          have hlk : lk = .staged (encodeTarget (.symbolic nm)) := by
            simpa using hhead
          subst hlk
          simp only [phase1] at h ⊢
          cases hr : (phase1 rest (applyVisible d name (encodeTarget (Target.symbolic nm)))).1 with
          | error f => rw [hr] at h; simp [Except.map] at h
          | ok es3 =>
            rcases List.mem_cons.mp he with rfl | hmem
            · injection hch with i1 i2 i3
              subst i2
              exact List.mem_cons_self _ _
            · exact List.mem_cons_of_mem _
                (ih _ es3 hr hinvrest e hmem p new m hch)

theorem phase1_preserves (es : List Edit) :
    ∀ (d : Disk) (n : RefName), (∀ e ∈ es, e.update.name ≠ n) →
      readRef (phase1 es d).2.1 n = readRef d n := by
  induction es with
  | nil => intro d n hn; simp [phase1]
  | cons e rest ih =>
    intro d n hn
    obtain ⟨⟨name, change⟩, lock, pidx⟩ := e
    have hname : name ≠ n := hn _ (List.mem_cons_self _ _)
    have hrest : ∀ x ∈ rest, x.update.name ≠ n :=
      fun x hx => hn x (List.mem_cons_of_mem _ hx)
    cases change with
    | delete p m =>
      simp only [phase1]
      exact ih d n hrest
    | update p new m =>
      cases lock with
      | none => simp [phase1]
      | some lk =>
        cases new with
        | peeled oid => simp [phase1]
        | symbolic nm =>
          cases lk with
          | staged c =>
            simp only [phase1]
            rw [ih _ n hrest]
            simp only [applyVisible, readRef]
            exact lookupRef_setRef_ne d.refs name n c (Ne.symm hname)
          | marker =>
            simp only [phase1]
            rw [ih _ n hrest]
            simp [releaseHeld, readRef]

theorem phase1_ok_read (es : List Edit) :
    ∀ (d : Disk) (es2 : List Edit), (phase1 es d).1 = .ok es2 →
      (es.map (fun e => e.update.name)).Nodup →
      (∀ e ∈ es, e.preparedInv) →
      ∀ e ∈ es, ∀ p new m, e.update.change = .update p new m →
        readRef (phase1 es d).2.1 e.update.name = some (encodeTarget new) := by
  induction es with
  | nil => intro d es2 h hnd hinv e he; cases he
  | cons e0 rest ih =>
    intro d es2 h hnd hinv e he p new m hch
    obtain ⟨⟨name, change⟩, lock, pidx⟩ := e0
    rw [List.map_cons, List.nodup_cons] at hnd
    have hinvrest : ∀ x ∈ rest, x.preparedInv :=
      fun x hx => hinv x (List.mem_cons_of_mem _ hx)
    cases change with
    | delete pd md =>
      simp only [phase1] at h ⊢
      cases hr : (phase1 rest d).1 with
      | error f => rw [hr] at h; simp [Except.map] at h
      | ok es3 =>
        rcases List.mem_cons.mp he with rfl | hmem
        · simp at hch
        · exact ih d es3 hr hnd.2 hinvrest e hmem p new m hch
    | update pu nu mu =>
      cases lock with
      | none => simp [phase1] at h
      | some lk =>
        have hhead := hinv _ (List.mem_cons_self _ _)
        simp only [Edit.preparedInv] at hhead
        cases nu with
        | peeled oid => simp [phase1] at h
        | symbolic nm =>
          have hlk : lk = .staged (encodeTarget (.symbolic nm)) := by
            simpa using hhead
          subst hlk
          simp only [phase1] at h ⊢
          cases hr : (phase1 rest (applyVisible d name (encodeTarget (Target.symbolic nm)))).1 with
          | error f => rw [hr] at h; simp [Except.map] at h
          | ok es3 =>
            rcases List.mem_cons.mp he with rfl | hmem
            · injection hch with i1 i2 i3
              subst i2
              have hpres : ∀ x ∈ rest, x.update.name ≠ name := by
                intro x hx hx2
                exact hnd.1 (hx2 ▸ List.mem_map_of_mem (fun e => e.update.name) hx)
              rw [phase1_preserves rest _ name hpres]
              simp only [applyVisible, readRef]
              exact lookupRef_setRef_self d.refs name _
            · exact ih _ es3 hr hnd.2 hinvrest e hmem p new m hch

theorem phase2_preserves (es : List Edit) :
    ∀ (d : Disk) (n : RefName),
      (∀ e ∈ es, ∀ p m, e.update.change = .delete p m → e.update.name ≠ n) →
      readRef (phase2 es d).2.1 n = readRef d n := by
  induction es with
  | nil => intro d n hn; simp [phase2]
  | cons e rest ih =>
    intro d n hn
    obtain ⟨⟨name, change⟩, lock, pidx⟩ := e
    have hrest : ∀ x ∈ rest, ∀ p m, x.update.change = .delete p m → x.update.name ≠ n :=
      fun x hx => hn x (List.mem_cons_of_mem _ hx)
    cases change with
    | update p new m =>
      simp only [phase2]
      exact ih d n hrest
    | delete p m =>
      have hname : name ≠ n := hn _ (List.mem_cons_self _ _) p m rfl
      cases lock with
      | none => simp [phase2]
      | some lk =>
        by_cases hre : name ∈ d.removeErr
        · simp [phase2, hre]
        · cases hlu : lookupRef d.refs name with
          | some c =>
            simp only [phase2, hre, if_false, ite_false, hlu]
            rw [ih _ n hrest]
            simp only [applyRemoved, readRef]
            exact lookupRef_eraseRef_ne d.refs name n (Ne.symm hname)
          | none =>
            simp only [phase2, hre, if_false, ite_false, hlu]
            rw [ih _ n hrest]
            simp [releaseHeld, readRef]

end GitRef

namespace GitAttributes

/-- UTF-8 continuation byte: `0x80 ..= 0xBF`. -/
def isContByte (c : Nat) : Bool := 0x80 ≤ c && c ≤ 0xBF

/-- Lower bound on the first continuation byte of a multi-byte sequence
(equal to `0x80` except after `0xE0` and `0xF0`). -/
def firstContLo (b : Nat) : Nat :=
  if b = 0xE0 then 0xA0 else if b = 0xF0 then 0x90 else 0x80

/-- Upper bound on the first continuation byte of a multi-byte sequence
(equal to `0xBF` except after `0xED` and `0xF4`). -/
def firstContHi (b : Nat) : Nat :=
  if b = 0xED then 0x9F else if b = 0xF4 then 0x8F else 0xBF

/-- Range check for the first continuation byte after leading byte `b`. -/
def isFirstContByte (b c : Nat) : Bool := firstContLo b ≤ c && c ≤ firstContHi b

/-- Validity of a byte sequence as UTF-8 (the check performed by Rust's
`str::from_utf8`, which `to_str` uses): ASCII bytes stand alone; two-byte
sequences start in `0xC2 ..= 0xDF`; three- and four-byte sequences restrict
their first continuation byte to exclude overlong forms, surrogates, and
code points past `U+10FFFF`. -/
def validUtf8 : List Nat → Bool
  | [] => true
  | b :: rest =>
    if b < 0x80 then validUtf8 rest
    else if b < 0xC2 then false
    else if b ≤ 0xDF then
      match rest with
      | c1 :: r => isContByte c1 && validUtf8 r
      | [] => false
    else if b ≤ 0xEF then
      match rest with
      | c1 :: c2 :: r => isFirstContByte b c1 && isContByte c2 && validUtf8 r
      | _ => false
    else if b ≤ 0xF4 then
      match rest with
      | c1 :: c2 :: c3 :: r =>
        isFirstContByte b c1 && isContByte c2 && isContByte c3 && validUtf8 r
      | _ => false
    else false

/-- A `CompactString` (the owned value of `State::Value`): by the string
type's invariant, its bytes are valid UTF-8. -/
def CompactString := { b : List Nat // validUtf8 b = true }

/-- `StateRef`: the borrowed form of an attribute state; its `Value` holds
an arbitrary byte string (`&BStr`). -/
inductive StateRef where
  | set
  | unset
  | value (v : List Nat)
  | unspecified

/-- `State`: the owned form of an attribute state. -/
inductive State where
  | set
  | unset
  | value (v : CompactString)
  | unspecified

/-- `State::as_ref`: borrow the state; `Value` exposes the string's bytes
(`v.as_bytes().as_bstr()`). -/
def State.as_ref : State → StateRef
  | .value v => .value v.val
  | .set => .set
  | .unset => .unset
  | .unspecified => .unspecified

/-- `From<StateRef> for State`: own the state; `Value` re-validates the
bytes as UTF-8 (`v.to_str().expect(..)` panics on ill-formed input). -/
def State.ofRef : StateRef → Except GitRef.Failure State
  | .value v =>
    if h : validUtf8 v = true then .ok (.value ⟨v, h⟩)
    else .error (.panic .noIllformedUnicode)
  | .set => .ok .set
  | .unset => .ok .unset
  | .unspecified => .ok .unspecified

end GitAttributes

namespace GitRef

/-! Concrete reference names (ASCII bytes) used by witnesses and
counterexamples. -/

/-- The bytes of the ASCII string for the main branch reference name. -/
def mainName : RefName :=
  [114, 101, 102, 115, 47, 104, 101, 97, 100, 115, 47, 109, 97, 105, 110]

/-- The bytes of the ASCII string for the dev branch reference name. -/
def devName : RefName :=
  [114, 101, 102, 115, 47, 104, 101, 97, 100, 115, 47, 100, 101, 118]

/-- The bytes of the ASCII string for the stale branch reference name. -/
def staleName : RefName :=
  [114, 101, 102, 115, 47, 104, 101, 97, 100, 115, 47, 115, 116, 97, 108, 101]

/-- The bytes of the ASCII string for an old branch reference name. -/
def oldName : RefName :=
  [114, 101, 102, 115, 47, 104, 101, 97, 100, 115, 47, 111, 108, 100]

/-- Whether an operation failed by returning a value of the `Error`
taxonomy (rather than succeeding or panicking). -/
def isReturnedError {α : Type _} : Except Failure α → Bool
  | .error (.err _) => true
  | _ => false

end GitRef

namespace GitRef

/-- Claim C9: `prepare` is idempotent: on a transaction whose state is
already `Prepared` it returns the transaction and the store unchanged,
acquiring no locks and touching no files, and therefore preparing twice
equals preparing once. -/
theorem prepare_idempotent (tx : Transaction) (d : Disk) :
    (tx.state = .Prepared → Transaction.prepare tx d = (.ok tx, d)) ∧
    (∀ tx2 d2, Transaction.prepare tx d = (.ok tx2, d2) →
      Transaction.prepare tx2 d2 = (.ok tx2, d2)) := by
  constructor
  · intro h
    obtain ⟨updates, state, fm⟩ := tx
    cases state with
    | Open => simp at h
    | Prepared => rfl
  · intro tx2 d2 h
    have hst := prepare_ok_state tx tx2 d d2 h
    obtain ⟨updates, state, fm⟩ := tx2
    cases state with
    | Open => simp at hst
    | Prepared => rfl

/-- Witness for C9 at a concrete prepared transaction. -/
theorem prepare_idempotent_witness :
    Transaction.prepare ⟨[], .Prepared, .immediately⟩ emptyDisk
      = (.ok ⟨[], .Prepared, .immediately⟩, emptyDisk) :=
  (prepare_idempotent ⟨[], .Prepared, .immediately⟩ emptyDisk).1 rfl

/-- Claim C3: whenever `prepare` fails, for any reason, the store is
observably unchanged: the disk (reference files, lock set, fault set) is
exactly the one from before the transaction began, and no prepared
transaction is produced. -/
theorem prepare_failure_store_unchanged (tx : Transaction) (d : Disk) (f : Failure)
    (h : (Transaction.prepare tx d).1 = .error f) :
    (Transaction.prepare tx d).2 = d ∧
    ∀ tx2, (Transaction.prepare tx d).1 ≠ .ok tx2 := by
  refine ⟨?_, ?_⟩
  · obtain ⟨updates, state, fm⟩ := tx
    cases state with
    | Prepared => simp [Transaction.prepare] at h
    | Open =>
      cases hdup : assure_one_name_has_one_edit (updates.map fun e => e.update.name) with
      | some n => simp [Transaction.prepare, hdup]
      | none =>
        cases hpe : prepareEdits updates d with
        | ok pr =>
          obtain ⟨es, d3⟩ := pr
          simp [Transaction.prepare, hdup, hpe] at h
        | error fd =>
          obtain ⟨f2, dm⟩ := fd
          obtain ⟨h1, h2⟩ := prepareEdits_err_disk updates d f2 dm hpe
          simp only [Transaction.prepare, hdup, hpe]
          apply Disk.ext <;> simp [h1, h2]
  · intro tx2 hcon
    rw [h] at hcon
    cases hcon

/-- Witness for C3: a duplicated batch makes `prepare` fail and the store
comes back unchanged. -/
theorem prepare_failure_store_unchanged_witness :
    (Transaction.prepare
        ⟨[⟨⟨oldName, .delete none .only⟩, none, none⟩,
          ⟨⟨oldName, .delete none .only⟩, none, none⟩], .Open, .immediately⟩
        emptyDisk).1
      = .error (.err (.duplicateRefEdits oldName)) ∧
    (Transaction.prepare
        ⟨[⟨⟨oldName, .delete none .only⟩, none, none⟩,
          ⟨⟨oldName, .delete none .only⟩, none, none⟩], .Open, .immediately⟩
        emptyDisk).2 = emptyDisk :=
  ⟨rfl,
   (prepare_failure_store_unchanged
      ⟨[⟨⟨oldName, .delete none .only⟩, none, none⟩,
        ⟨⟨oldName, .delete none .only⟩, none, none⟩], .Open, .immediately⟩
      emptyDisk (.err (.duplicateRefEdits oldName)) rfl).1⟩

/-- Claim C4: a batch containing two edits with the same reference name
makes `prepare` fail with `DuplicateRefEdits` carrying the first duplicated
name, and the store (including the lock set, so before any lock is
acquired) is returned unchanged. -/
theorem duplicate_edits_rejected (tx : Transaction) (d : Disk)
    (hst : tx.state = .Open)
    (hdup : ¬ (tx.updates.map (fun e => e.update.name)).Nodup) :
    ∃ n, assure_one_name_has_one_edit (tx.updates.map (fun e => e.update.name)) = some n ∧
      Transaction.prepare tx d = (.error (.err (.duplicateRefEdits n)), d) := by
  obtain ⟨n, hn⟩ := assure_some_of_not_nodup _ hdup
  refine ⟨n, hn, ?_⟩
  obtain ⟨updates, state, fm⟩ := tx
  cases state with
  | Prepared => simp at hst
  | Open => simp only [Transaction.prepare] at hn ⊢; rw [hn]

/-- Witness for C4 at a concrete duplicated batch. -/
theorem duplicate_edits_rejected_witness :
    ¬ (((⟨[⟨⟨mainName, .update none (.peeled [1]) .only⟩, none, none⟩,
          ⟨⟨mainName, .update none (.peeled [2]) .only⟩, none, none⟩],
         .Open, .immediately⟩ : Transaction).updates.map
            (fun e => e.update.name)).Nodup) ∧
    (∃ n, assure_one_name_has_one_edit
        ((⟨[⟨⟨mainName, .update none (.peeled [1]) .only⟩, none, none⟩,
            ⟨⟨mainName, .update none (.peeled [2]) .only⟩, none, none⟩],
           .Open, .immediately⟩ : Transaction).updates.map (fun e => e.update.name))
        = some n ∧
      Transaction.prepare
        ⟨[⟨⟨mainName, .update none (.peeled [1]) .only⟩, none, none⟩,
          ⟨⟨mainName, .update none (.peeled [2]) .only⟩, none, none⟩],
         .Open, .immediately⟩ emptyDisk
        = (.error (.err (.duplicateRefEdits n)), emptyDisk)) :=
  ⟨by decide,
   duplicate_edits_rejected
     ⟨[⟨⟨mainName, .update none (.peeled [1]) .only⟩, none, none⟩,
       ⟨⟨mainName, .update none (.peeled [2]) .only⟩, none, none⟩],
      .Open, .immediately⟩ emptyDisk rfl (by decide)⟩

/-- Claim C8: a `Delete` edit with a required previous value, applied to a
name with no existing reference, fails with `DeletionReferenceMustExist`
carrying that name — both at the level of `lock_ref_and_apply_change` and
through `prepare` of a transaction consisting of that edit. -/
theorem delete_with_previous_needs_existing (d : Disk) (e : Edit)
    (prevT : Target) (m : RefLog) (fm : Fail)
    (hlk : e.lock = none)
    (hch : e.update.change = .delete (some prevT) m)
    (hheld : e.update.name ∉ d.held)
    (hmiss : readRef d e.update.name = none) :
    lock_ref_and_apply_change d e
      = .error (.err (.deletionReferenceMustExist e.update.name)) ∧
    Transaction.prepare ⟨[e], .Open, fm⟩ d
      = (.error (.err (.deletionReferenceMustExist e.update.name)), d) := by
  have h1 : lock_ref_and_apply_change d e
      = .error (.err (.deletionReferenceMustExist e.update.name)) := by
    unfold lock_ref_and_apply_change
    rw [hlk, hch]
    simp [refContents, hmiss, hheld]
  refine ⟨h1, ?_⟩
  simp [Transaction.prepare, assure_one_name_has_one_edit, prepareEdits, h1]

/-- Witness for C8 at a concrete delete of a missing reference. -/
theorem delete_with_previous_needs_existing_witness :
    lock_ref_and_apply_change emptyDisk
        ⟨⟨staleName, .delete (some (.peeled [9])) .only⟩, none, none⟩
      = .error (.err (.deletionReferenceMustExist staleName)) ∧
    Transaction.prepare
        ⟨[⟨⟨staleName, .delete (some (.peeled [9])) .only⟩, none, none⟩],
         .Open, .immediately⟩ emptyDisk
      = (.error (.err (.deletionReferenceMustExist staleName)), emptyDisk) :=
  delete_with_previous_needs_existing emptyDisk
    ⟨⟨staleName, .delete (some (.peeled [9])) .only⟩, none, none⟩
    (.peeled [9]) .only .immediately rfl rfl (by simp [emptyDisk]) rfl

end GitRef

namespace GitAttributes

/-- Claim C10: converting an owned attribute `State` to its borrowed form
and back is the identity: for every `State` (including `Value` with any
string content) the `From` conversion applied to `as_ref` returns exactly
the original state (and in particular never hits the ill-formed-unicode
panic, because an owned string's bytes are always valid UTF-8). -/
theorem state_as_ref_roundtrip (s : State) : State.ofRef s.as_ref = .ok s := by
  cases s with
  | value v =>
    simp only [State.as_ref, State.ofRef]
    split
    next => rfl
    next h => exact absurd v.property h
  | set => rfl
  | unset => rfl
  | unspecified => rfl

end GitAttributes

namespace GitRef

/-- Counterexample to C1 as stated: for the single-edit batch updating the
main reference to a peeled object id on an empty store, `commit` does not
succeed (it aborts at the unimplemented reflog branch for peeled targets)
and afterwards no file exists at the reference's path. -/
theorem c1_commit_peeled_panics :
    (Transaction.commit
        ⟨[⟨⟨mainName, .update none (.peeled [171, 205, 18]) .only⟩, none, none⟩],
         .Open, .immediately⟩ emptyDisk).1
      = .error (.panic .reflogWriteCases) ∧
    readRef (Transaction.commit
        ⟨[⟨⟨mainName, .update none (.peeled [171, 205, 18]) .only⟩, none, none⟩],
         .Open, .immediately⟩ emptyDisk).2.1 mainName = none :=
  ⟨rfl, rfl⟩

/-- Claim C1 (amended): for the batch
`[Update(main, previous = None, new = Peeled(oid))]` on an empty store,
`prepare` succeeds, records `previous = None` in the realized edit, and
stages exactly the raw bytes of the object id; `commit`, however, panics at
the unimplemented `todo!` reflog branch for peeled targets before making
anything visible, leaving the store unchanged and producing no events. -/
theorem c1_update_staged_commit_unimplemented (oid : Bytes) :
    Transaction.prepare
        ⟨[⟨⟨mainName, .update none (.peeled oid) .only⟩, none, none⟩],
         .Open, .immediately⟩ emptyDisk
      = (.ok ⟨[⟨⟨mainName, .update none (.peeled oid) .only⟩,
                some (.staged oid), none⟩], .Prepared, .immediately⟩,
         ⟨[], [mainName], []⟩) ∧
    Transaction.commit
        ⟨[⟨⟨mainName, .update none (.peeled oid) .only⟩, none, none⟩],
         .Open, .immediately⟩ emptyDisk
      = (.error (.panic .reflogWriteCases), emptyDisk, []) :=
  ⟨rfl, rfl⟩

/-- Counterexample to C5 as stated: deleting the stale reference with a
required previous value while the store holds a different value does not
make `prepare` return any error of the taxonomy (so in particular no
mismatch error): it panics at the unimplemented `todo!` comparison of the
existing value with the desired previous one. -/
theorem c5_prepare_panics_not_mismatch :
    (Transaction.prepare
        ⟨[⟨⟨staleName, .delete (some (.peeled [9, 9])) .only⟩, none, none⟩],
         .Open, .immediately⟩ ⟨[(staleName, [7, 7])], [], []⟩).1
      = .error (.panic .comparePreviousDelete) ∧
    isReturnedError (Transaction.prepare
        ⟨[⟨⟨staleName, .delete (some (.peeled [9, 9])) .only⟩, none, none⟩],
         .Open, .immediately⟩ ⟨[(staleName, [7, 7])], [], []⟩).1 = false :=
  ⟨rfl, rfl⟩

/-- Claim C5 (amended): for the batch
`[Delete(stale, previous = Some(Peeled(oidY)))]` against a store whose file
for that name holds `oidZ`, `prepare` aborts at the unimplemented `todo!`
comparison between the requested previous value and the existing one (a
panic, not a returned mismatch error) — this happens whatever the two
values are — and the stored file for the stale reference is untouched. -/
theorem c5_delete_previous_comparison_unimplemented
    (oidY oidZ : Bytes) (m : RefLog) (fm : Fail) :
    Transaction.prepare
        ⟨[⟨⟨staleName, .delete (some (.peeled oidY)) m⟩, none, none⟩],
         .Open, fm⟩ ⟨[(staleName, oidZ)], [], []⟩
      = (.error (.panic .comparePreviousDelete), ⟨[(staleName, oidZ)], [], []⟩) ∧
    readRef ⟨[(staleName, oidZ)], [], []⟩ staleName = some oidZ :=
  ⟨rfl, rfl⟩

/-- Claim C7: in the delete phase of `commit`, a missing reference file is
treated as success (the whole commit returns `Ok` and the realized delete
edit is reported), while a removal failure of any other kind does not
produce a returned error: the source hits the
`todo!` that says it should return an error, i.e. it panics. The first
conjunct evaluates `commit` on a delete of an absent file; the second
injects a non-`NotFound` removal error for the same edit. -/
theorem c7_delete_notfound_ok_other_error_panics :
    Transaction.commit
        ⟨[⟨⟨oldName, .delete none .only⟩, none, none⟩], .Open, .immediately⟩
        emptyDisk
      = (.ok [⟨oldName, .delete none .only⟩], emptyDisk, []) ∧
    (Transaction.commit
        ⟨[⟨⟨oldName, .delete none .only⟩, none, none⟩], .Open, .immediately⟩
        ⟨[(oldName, [7])], [], [oldName]⟩).1
      = .error (.panic .deletionFailedTodo) :=
  ⟨rfl, rfl⟩

end GitRef

namespace GitRef

/-- Claim C2: during `commit` of a transaction prepared from an open one,
every staged update is made visible before any reference file is removed:
the event trace splits into a removal-free prefix followed by a
removals-only suffix, and if any removal happens at all then for every
`Update` edit of the batch its staged content was made visible at its path
earlier in the trace. -/
theorem commit_updates_visible_before_deletes
    (tx0 tx : Transaction) (d0 d : Disk)
    (hst : tx0.state = .Open)
    (hp : Transaction.prepare tx0 d0 = (.ok tx, d)) :
    (∃ trU trD, (commitPrepared tx d).2.2 = trU ++ trD ∧
      (∀ ev ∈ trU, ev.isRemoval = false) ∧
      (∀ ev ∈ trD, ev.isRemoval = true)) ∧
    ((∃ ev ∈ (commitPrepared tx d).2.2, ev.isRemoval = true) →
      ∀ e ∈ tx.updates, ∀ p new m, e.update.change = .update p new m →
        Ev.visible e.update.name (encodeTarget new) ∈ (commitPrepared tx d).2.2) := by
  obtain ⟨-, -, hinv⟩ := prepare_ok_spec tx0 d0 tx d hst hp
  cases h1 : (phase1 tx.updates d).1 with
  | error f =>
    have htr : (commitPrepared tx d).2.2 = (phase1 tx.updates d).2.2 := by
      simp [commitPrepared, h1]
    constructor
    · refine ⟨(phase1 tx.updates d).2.2, [], ?_, ?_, ?_⟩
      · simp [htr]
      · exact phase1_no_removals tx.updates d
      · simp
    · intro hex
      obtain ⟨ev, hev, hrem⟩ := hex
      rw [htr] at hev
      have hfalse := phase1_no_removals tx.updates d ev hev
      rw [hrem] at hfalse
      cases hfalse
  | ok es1 =>
    cases h2 : (phase2 es1 (phase1 tx.updates d).2.1).1 with
    | error f =>
      have htr : (commitPrepared tx d).2.2
          = (phase1 tx.updates d).2.2 ++ (phase2 es1 (phase1 tx.updates d).2.1).2.2 := by
        simp [commitPrepared, h1, h2]
      constructor
      · exact ⟨_, _, htr, phase1_no_removals tx.updates d,
          phase2_all_removals es1 _⟩
      · intro hex e he p new m hch
        rw [htr]
        exact List.mem_append_left _
          (phase1_ok_visible tx.updates d es1 h1 hinv e he p new m hch)
    | ok es2 =>
      have htr : (commitPrepared tx d).2.2
          = (phase1 tx.updates d).2.2 ++ (phase2 es1 (phase1 tx.updates d).2.1).2.2 := by
        simp [commitPrepared, h1, h2]
      constructor
      · exact ⟨_, _, htr, phase1_no_removals tx.updates d,
          phase2_all_removals es1 _⟩
      · intro hex e he p new m hch
        rw [htr]
        exact List.mem_append_left _
          (phase1_ok_visible tx.updates d es1 h1 hinv e he p new m hch)

/-- The open transaction used by the witness of C2: one symbolic update of
the main reference and one delete of an old reference that exists. -/
def c2txOpen : Transaction :=
  ⟨[⟨⟨mainName, .update none (.symbolic devName) .only⟩, none, none⟩,
    ⟨⟨oldName, .delete none .only⟩, none, none⟩], .Open, .immediately⟩

/-- The starting store of the witness of C2. -/
def c2diskStart : Disk := ⟨[(oldName, [1, 2])], [], []⟩

/-- The prepared transaction resulting from `prepare` on `c2txOpen`. -/
def c2txPrepared : Transaction :=
  ⟨[⟨⟨mainName, .update none (.symbolic devName) .only⟩,
     some (.staged (refColonSpace ++ devName)), none⟩,
    ⟨⟨oldName, .delete none .only⟩, some .marker, none⟩], .Prepared, .immediately⟩

/-- The store resulting from `prepare` on `c2txOpen`. -/
def c2diskPrepared : Disk := ⟨[(oldName, [1, 2])], [oldName, mainName], []⟩

/-- Witness for C2 at a concrete prepared batch with one update and one
delete. -/
theorem commit_updates_visible_before_deletes_witness :
    Transaction.prepare c2txOpen c2diskStart = (.ok c2txPrepared, c2diskPrepared) ∧
    (∃ trU trD, (commitPrepared c2txPrepared c2diskPrepared).2.2 = trU ++ trD ∧
      (∀ ev ∈ trU, ev.isRemoval = false) ∧
      (∀ ev ∈ trD, ev.isRemoval = true)) ∧
    ((∃ ev ∈ (commitPrepared c2txPrepared c2diskPrepared).2.2, ev.isRemoval = true) →
      ∀ e ∈ c2txPrepared.updates, ∀ p new m, e.update.change = .update p new m →
        Ev.visible e.update.name (encodeTarget new)
          ∈ (commitPrepared c2txPrepared c2diskPrepared).2.2) :=
  ⟨rfl, commit_updates_visible_before_deletes c2txOpen c2txPrepared
    c2diskStart c2diskPrepared rfl rfl⟩

/-- Claim C6: for a transaction prepared from an open one, when `commit`
returns `Ok` the reference file of every `Update` edit contains bit-exactly
the encoding of its new target: the raw object-id bytes for a peeled
target, or the literal prefix followed by the referent name's bytes for a
symbolic one, and nothing else. -/
theorem commit_update_content_exact
    (tx0 tx : Transaction) (d0 d : Disk)
    (hst : tx0.state = .Open)
    (hp : Transaction.prepare tx0 d0 = (.ok tx, d))
    (res : List RefEdit) (d2 : Disk) (tr : List Ev)
    (hc : commitPrepared tx d = (.ok res, d2, tr))
    (e : Edit) (he : e ∈ tx.updates)
    (p : Option Target) (new : Target) (m : RefLog)
    (hch : e.update.change = .update p new m) :
    readRef d2 e.update.name = some (encodeTarget new) := by
  obtain ⟨-, hnd, hinv⟩ := prepare_ok_spec tx0 d0 tx d hst hp
  cases h1 : (phase1 tx.updates d).1 with
  | error f => simp [commitPrepared, h1] at hc
  | ok es1 =>
    cases h2 : (phase2 es1 (phase1 tx.updates d).2.1).1 with
    | error f => simp [commitPrepared, h1, h2] at hc
    | ok es2 =>
      simp only [commitPrepared, h1, h2, Prod.mk.injEq] at hc
      obtain ⟨-, hd2, -⟩ := hc
      subst hd2
      have hread := phase1_ok_read tx.updates d es1 h1 hnd hinv e he p new m hch
      have hdelne : ∀ x ∈ es1, ∀ px mx,
          x.update.change = .delete px mx → x.update.name ≠ e.update.name := by
        intro x hx px mx hxch hxeq
        have hupd := phase1_ok_updates tx.updates d es1 h1
        have hxm : x.update ∈ tx.updates.map (fun e => e.update) := by
          rw [← hupd]
          exact List.mem_map_of_mem _ hx
        obtain ⟨x0, hx0mem, hx0eq⟩ := List.mem_map.mp hxm
        have hxname : x0.update.name = e.update.name := by rw [hx0eq]; exact hxeq
        have hx0e : x0 = e :=
          nodupMap_inj (fun e => e.update.name) tx.updates hnd x0 e hx0mem he hxname
        subst hx0e
        rw [hx0eq, hxch] at hch
        cases hch
      exact (phase2_preserves es1 _ e.update.name hdelne).trans hread

/-- The open transaction used by the witness of C6: a single symbolic
update of the main reference. -/
def c6txOpen : Transaction :=
  ⟨[⟨⟨mainName, .update none (.symbolic devName) .only⟩, none, none⟩],
   .Open, .immediately⟩

/-- The prepared transaction resulting from `prepare` on `c6txOpen`. -/
def c6txPrepared : Transaction :=
  ⟨[⟨⟨mainName, .update none (.symbolic devName) .only⟩,
     some (.staged (refColonSpace ++ devName)), none⟩], .Prepared, .immediately⟩

/-- The store resulting from `prepare` on `c6txOpen` applied to the empty
store. -/
def c6diskPrepared : Disk := ⟨[], [mainName], []⟩

/-- The store after committing the prepared witness transaction of C6. -/
def c6diskDone : Disk := ⟨[(mainName, refColonSpace ++ devName)], [], []⟩

/-- Witness for C6: committing a symbolic update of the main reference
leaves exactly the prefixed referent name in its file. -/
theorem commit_update_content_exact_witness :
    Transaction.prepare c6txOpen emptyDisk = (.ok c6txPrepared, c6diskPrepared) ∧
    commitPrepared c6txPrepared c6diskPrepared
      = (.ok [⟨mainName, .update none (.symbolic devName) .only⟩], c6diskDone,
         [.visible mainName (refColonSpace ++ devName)]) ∧
    readRef c6diskDone mainName = some (encodeTarget (.symbolic devName)) :=
  ⟨rfl, rfl,
   commit_update_content_exact c6txOpen c6txPrepared emptyDisk c6diskPrepared
     rfl rfl
     [⟨mainName, .update none (.symbolic devName) .only⟩] c6diskDone
     [.visible mainName (refColonSpace ++ devName)] rfl
     ⟨⟨mainName, .update none (.symbolic devName) .only⟩,
      some (.staged (refColonSpace ++ devName)), none⟩
     (List.mem_cons_self _ _)
     none (.symbolic devName) .only rfl⟩

end GitRef
